import Mathlib

/-!
Verification of the CodeGuardian parallel multi-agent orchestrator
(`app/orchestrator.py`) against its specification.

The embedding models:
- pydantic models (`app/models.py`) as Lean structures;
- Python dicts (which preserve insertion order) as association lists with an
  order-preserving `upsert`;
- exceptions as `Except Exn`;
- the thread-pool dispatcher as futures carrying an optional wall-clock
  completion time (`none` = the underlying call never returns), with
  `as_completed` collecting in completion order and blocking forever when a
  future never completes (Python's `as_completed` has no timeout argument in
  this code, so iteration waits indefinitely).
-/

namespace CodeGuardian

/-- Severity levels of `app/models.py` (`Severity = Literal[...]`). -/
inductive Severity where
  | critical
  | major
  | minor
  | info
deriving DecidableEq

/-- A parsed diff line, `app/diff_parser.py` class `ParsedChange`. -/
structure ParsedChange where
  file_path : String
  new_line_no : Int
  content : String
deriving DecidableEq

/-- Python exceptions as observed by the orchestrator: the `TimeoutError`
imported from `concurrent.futures`, or any other exception. -/
inductive Exn where
  | timeoutError (msg : String)
  | exc (msg : String)
deriving DecidableEq

/-- `app/models.py` class `ReviewComment`. -/
structure ReviewComment where
  file : String
  line : Int
  severity : Severity
  agent : String
  comment : String
  suggestion : Option String
deriving DecidableEq

/-- `app/models.py` class `ReviewSummary`. -/
structure ReviewSummary where
  total_comments : Nat
  critical : Nat
  major : Nat
  minor : Nat
  info : Nat
  message : String
deriving DecidableEq

/-- `app/models.py` class `ReadableAgentComment` (a merged finding). -/
structure ReadableAgentComment where
  agent : String
  comment : String
  suggestion : Option String
  lines : List Int
deriving DecidableEq

/-- `app/models.py` class `ReadableReviewResponse`.  The nested dicts
`files[file][severity]` become insertion-ordered association lists. -/
structure ReadableReviewResponse where
  summary : ReviewSummary
  files : List (String × List (Severity × List ReadableAgentComment))
deriving DecidableEq

/-- An agent instance (`app/agents/base.py` `BaseAgent`): a name and a
`review` entry point that either returns comments or raises.  `duration`
abstracts the wall-clock time the call takes; `completion` is the wall-clock
instant at which the worker running the agent finishes (`none` when the
`review` call never returns). -/
structure Agent where
  name : String
  review : List ParsedChange → Except Exn (List ReviewComment)
  duration : Nat
  completion : Option Nat

/-- `app/orchestrator.py` class `AgentResult`.  `success` is `error is None`. -/
structure AgentResult where
  agent_name : String
  comments : List ReviewComment
  duration : Nat
  error : Option Exn
deriving DecidableEq

/-- `self.success = error is None` from `AgentResult.__init__`. -/
def AgentResult.success (r : AgentResult) : Bool :=
  r.error.isNone

/-- `app/orchestrator.py` `run_agent_safe` (lines 55-81): run one agent,
catch every exception and convert it into an `AgentResult` with empty
comments and the error recorded; the duration is recorded on both paths. -/
def run_agent_safe (agent : Agent) (changes : List ParsedChange) : AgentResult :=
  match agent.review changes with
  | .ok comments => ⟨agent.name, comments, agent.duration, none⟩
  | .error e => ⟨agent.name, [], agent.duration, some e⟩

/-! ## Association lists modelling Python dicts -/

/-- Dict lookup: first binding of the key, if any. -/
def alist_lookup {κ β : Type} [DecidableEq κ] (k : κ) : List (κ × β) → Option β
  | [] => none
  | (k', v) :: rest => if k' = k then some v else alist_lookup k rest

/-- Dict update preserving insertion order: replace the value at `k` when the
key exists, otherwise append a fresh binding at the end (Python dicts keep
first-insertion position for existing keys and append new keys). -/
def upsert {κ β : Type} [DecidableEq κ] (k : κ) (f : Option β → β) :
    List (κ × β) → List (κ × β)
  | [] => [(k, f none)]
  | (k', v) :: rest =>
    if k' = k then (k', f (some v)) :: rest else (k', v) :: upsert k f rest

/-! ## Deduplication (`_deduplicate_comments`, lines 244-251) -/

/-- The dedup key `(c.file, c.line, c.comment)`. -/
def dedupKey (c : ReviewComment) : String × Int × String :=
  (c.file, c.line, c.comment)

/-- The dict-filling loop of `_deduplicate_comments`: `seen` is the key set of
`unique_map`; a comment is kept iff its key is not yet present, and
`list(unique_map.values())` lists kept comments in first-insertion order. -/
def dedup_go : List (String × Int × String) → List ReviewComment → List ReviewComment
  | _, [] => []
  | seen, c :: rest =>
    if dedupKey c ∈ seen then dedup_go seen rest
    else c :: dedup_go (dedupKey c :: seen) rest

/-- `app/orchestrator.py` `_deduplicate_comments`. -/
def deduplicate_comments (comments : List ReviewComment) : List ReviewComment :=
  dedup_go [] comments

/-! ## Severity filter (`_filter_by_severity`, lines 254-261) -/

/-- The dict `severity_order` applied to a comment's severity (a `Literal`,
so the lookup always succeeds). -/
def severity_order (s : Severity) : Nat :=
  match s with
  | .critical => 0
  | .major => 1
  | .minor => 2
  | .info => 3

/-- `severity_order.get(settings.MIN_SEVERITY_LEVEL, 3)`: the configured
minimum level is an arbitrary string; unknown strings default to 3. -/
def severity_order_get (s : String) : Nat :=
  if s = "critical" then 0
  else if s = "major" then 1
  else if s = "minor" then 2
  else if s = "info" then 3
  else 3

/-- `app/orchestrator.py` `_filter_by_severity`. -/
def filter_by_severity (min_severity_level : String) (comments : List ReviewComment) :
    List ReviewComment :=
  comments.filter (fun c => severity_order c.severity ≤ severity_order_get min_severity_level)

/-- The call site at lines 182-183: the filter runs only when
`settings.MIN_SEVERITY_LEVEL != "info"`. -/
def severity_gate (min_severity_level : String) (comments : List ReviewComment) :
    List ReviewComment :=
  if min_severity_level ≠ "info" then filter_by_severity min_severity_level comments
  else comments

/-! ## Summary (`_build_summary`, lines 264-297) -/

/-- One slot of the `severity_counts` tally dict. -/
def count_severity (s : Severity) (comments : List ReviewComment) : Nat :=
  comments.countP (fun c => decide (c.severity = s))

/-- The non-empty branch of the summary message (the `{total_time:.1f}`
float formatting is abstracted as the pre-formatted string `time_str`). -/
def summary_message (total : Nat) (time_str : String) (successful_agents total_agents : Nat)
    (crit maj mino inf : Nat) : String :=
  "Found " ++ toString total ++ " potential issue(s) in " ++ time_str ++ "s (" ++
  toString successful_agents ++ "/" ++ toString total_agents ++ " agents): " ++
  toString crit ++ " critical, " ++ toString maj ++ " major, " ++
  toString mino ++ " minor, " ++ toString inf ++ " informational."

/-- `app/orchestrator.py` `_build_summary`. -/
def build_summary (comments : List ReviewComment) (agent_results : List AgentResult)
    (time_str : String) : ReviewSummary :=
  let crit := count_severity .critical comments
  let maj := count_severity .major comments
  let mino := count_severity .minor comments
  let inf := count_severity .info comments
  let total := comments.length
  let successful_agents := (agent_results.filter (fun r => r.success)).length
  let total_agents := agent_results.length
  let msg :=
    if total = 0 then "✅ No issues detected by automated review agents."
    else summary_message total time_str successful_agents total_agents crit maj mino inf
  ⟨total, crit, maj, mino, inf, msg⟩

/-! ## Structuring (`_structure_comments`, lines 300-342) -/

/-- One iteration of the grouping loop:
`files[c.file][c.severity].append(c)`, creating the dicts/list on demand. -/
def group_step (files : List (String × List (Severity × List ReviewComment)))
    (c : ReviewComment) : List (String × List (Severity × List ReviewComment)) :=
  upsert c.file
    (fun inner => upsert c.severity (fun cs => cs.getD [] ++ [c]) (inner.getD []))
    files

/-- The first loop of `_structure_comments`: group by file, then severity. -/
def group_by_file_severity (comments : List ReviewComment) :
    List (String × List (Severity × List ReviewComment)) :=
  comments.foldl group_step []

/-- The merge key `f"{c.agent}:{c.comment}"`. -/
def merge_key (c : ReviewComment) : String :=
  c.agent ++ ":" ++ c.comment

/-- One iteration of the merging loop over a (file, severity) bucket:
create an entry for an unseen key, otherwise append the line number if it is
not already recorded. -/
def merge_step (merged : List (String × ReadableAgentComment)) (c : ReviewComment) :
    List (String × ReadableAgentComment) :=
  upsert (merge_key c)
    (fun entry =>
      match entry with
      | none => ⟨c.agent, c.comment, c.suggestion, [c.line]⟩
      | some e => if c.line ∈ e.lines then e else { e with lines := e.lines ++ [c.line] })
    merged

/-- The merged entries of one (file, severity) bucket, in insertion order
(`list(merged.values())`). -/
def merge_bucket (cs : List ReviewComment) : List ReadableAgentComment :=
  (cs.foldl merge_step []).map (fun p => p.2)

/-- The cap branch of `_structure_comments` (lines 331-338). -/
def cap_bucket (cap : Nat) (merged : List ReadableAgentComment) :
    List ReadableAgentComment :=
  if merged.length > cap then merged.take cap else merged

/-- Output of `_structure_comments`: the structured files dict, plus the
sequence of `logger.warning` truncation signals `(file_path, original count)`
emitted in iteration order. -/
structure StructuredOutput where
  files : List (String × List (Severity × List ReadableAgentComment))
  warnings : List (String × Nat)
deriving DecidableEq

/-- `app/orchestrator.py` `_structure_comments` with
`cap = settings.MAX_COMMENTS_PER_FILE`. -/
def structure_comments (cap : Nat) (comments : List ReviewComment) : StructuredOutput :=
  let grouped := group_by_file_severity comments
  { files := grouped.map (fun fp => (fp.1, fp.2.map (fun sp => (sp.1, cap_bucket cap (merge_bucket sp.2)))))
    warnings := grouped.flatMap (fun fp => fp.2.filterMap (fun sp =>
      if (merge_bucket sp.2).length > cap then some (fp.1, (merge_bucket sp.2).length) else none)) }

/-- Lookup of a (file, severity) bucket in a structured files dict. -/
def files_bucket (files : List (String × List (Severity × List ReadableAgentComment)))
    (f : String) (s : Severity) : List ReadableAgentComment :=
  (alist_lookup s ((alist_lookup f files).getD [])).getD []

/-- Lookup of a (file, severity) bucket in the grouping dict. -/
def group_bucket (files : List (String × List (Severity × List ReviewComment)))
    (f : String) (s : Severity) : List ReviewComment :=
  (alist_lookup s ((alist_lookup f files).getD [])).getD []

/-! ## Empty review (`_empty_review`, lines 345-357) -/

/-- `app/orchestrator.py` `_empty_review`. -/
def empty_review (message : String) : ReadableReviewResponse :=
  ⟨⟨0, 0, 0, 0, 0, message⟩, []⟩

/-! ## Registry (`AGENT_MAP` and `get_agents`, lines 35-41 and 207-241) -/

/-- The environment-dependent behaviour of `AGENT_MAP`: each known name maps
to a constructor outcome (`.ok` an instance, or `.error` when `__init__`
raises, e.g. for a missing credential). -/
abbrev Registry := List (String × Except Exn Agent)

/-- `app/config.py` `Settings`: the per-agent enable flags. -/
structure Flags where
  ENABLE_CODE_QUALITY_AGENT : Bool
  ENABLE_LOGIC_AGENT : Bool
  ENABLE_SECURITY_AGENT : Bool
  ENABLE_PERFORMANCE_AGENT : Bool
  ENABLE_READABILITY_AGENT : Bool
deriving DecidableEq

/-- The `if selected_agents:` loop of `get_agents` (lines 217-227): known
names are constructed in the order given; a constructor that raises is logged
and skipped; unknown names are warned about and skipped. -/
def requested_get_agents (reg : Registry) : List String → List Agent
  | [] => []
  | name :: rest =>
    match alist_lookup name reg with
    | some (.ok a) => a :: requested_get_agents reg rest
    | some (.error _) => requested_get_agents reg rest
    | none => requested_get_agents reg rest

/-- `AGENT_MAP[name]()` in the configuration path: a missing key raises
`KeyError`, otherwise the constructor outcome is whatever the environment
gives. -/
def construct (reg : Registry) (name : String) : Except Exn Agent :=
  match alist_lookup name reg with
  | some r => r
  | none => .error (.exc "KeyError")

/-- One `if settings.ENABLE_…: agents.append(AGENT_MAP[…]())` statement of the
configuration path; a raising constructor propagates (this path has no
`try`). -/
def config_step (reg : Registry) (flag : Bool) (name : String) (acc : List Agent) :
    Except Exn (List Agent) :=
  if flag then
    match construct reg name with
    | .ok a => .ok (acc ++ [a])
    | .error e => .error e
  else .ok acc

/-- The configuration path of `get_agents` (lines 230-241). -/
def config_get_agents (reg : Registry) (flags : Flags) : Except Exn (List Agent) := do
  let a1 ← config_step reg flags.ENABLE_CODE_QUALITY_AGENT "code_quality_agent" []
  let a2 ← config_step reg flags.ENABLE_LOGIC_AGENT "logic_agent" a1
  let a3 ← config_step reg flags.ENABLE_SECURITY_AGENT "security_agent" a2
  let a4 ← config_step reg flags.ENABLE_PERFORMANCE_AGENT "performance_agent" a3
  let a5 ← config_step reg flags.ENABLE_READABILITY_AGENT "readability_agent" a4
  pure a5

/-- `app/orchestrator.py` `get_agents`.  Python truthiness: `None` and the
empty list both fall through to the configuration path. -/
def get_agents (selected_agents : Option (List String)) (reg : Registry) (flags : Flags) :
    Except Exn (List Agent) :=
  match selected_agents with
  | some l => if l.isEmpty then config_get_agents reg flags
              else .ok (requested_get_agents reg l)
  | none => config_get_agents reg flags

/-! ## Parallel dispatcher (lines 123-155) -/

/-- A submitted future: completion instant of `run_agent_safe` in its worker
(`none` when the call never returns) and the value it produces. -/
structure Future where
  completion : Option Nat
  value : AgentResult
deriving DecidableEq

/-- `executor.submit(run_agent_safe, agent, changes, agent_timeout)` for every
agent. -/
def submit (agents : List Agent) (changes : List ParsedChange) : List Future :=
  agents.map (fun a => ⟨a.completion, run_agent_safe a changes⟩)

/-- Sort key of a completed future. -/
def completion_key (f : Future) : Nat :=
  f.completion.getD 0

/-- Stable insertion of a future behind every earlier-completing (or tied)
future. -/
def insert_by_completion (f : Future) : List Future → List Future
  | [] => [f]
  | g :: rest =>
    if completion_key g ≤ completion_key f then g :: insert_by_completion f rest
    else f :: g :: rest

/-- Completion order of a set of completed futures. -/
def sort_by_completion : List Future → List Future
  | [] => []
  | f :: rest => insert_by_completion f (sort_by_completion rest)

/-- The collection loop `for future in as_completed(future_to_agent): …`.
`as_completed` is called without a timeout, so it yields futures in
completion order and waits indefinitely while any future is unfinished:
if some future never completes the loop never terminates (`none`).  When a
future is yielded it is already done, so the `future.result` call at line 142
returns its value immediately and the `except TimeoutError` branch cannot
run. -/
def collect_as_completed (futures : List Future) : Option (List AgentResult) :=
  if futures.all (fun f => f.completion.isSome) then
    some ((sort_by_completion futures).map (fun f => f.value))
  else none

/-! ## Aggregation and the top-level entry point (lines 84-204) -/

/-- Lines 159-173: keep the successful results and concatenate their comments
in collection order (`all_comments.extend(result.comments)`). -/
def flatten_successful (agent_results : List AgentResult) : List ReviewComment :=
  (agent_results.filter (fun r => r.success)).foldl (fun acc r => acc ++ r.comments) []

/-- Lines 159-194: the aggregation pipeline run on the collected results:
flatten successful, deduplicate, severity-gate, summarize, structure. -/
def aggregate (agent_results : List AgentResult) (min_severity_level : String)
    (cap : Nat) (time_str : String) : ReadableReviewResponse :=
  let all_comments := flatten_successful agent_results
  let unique_comments := severity_gate min_severity_level (deduplicate_comments all_comments)
  ⟨build_summary unique_comments agent_results time_str,
   (structure_comments cap unique_comments).files⟩

/-- Observable outcome of a call to the orchestrator: a returned response, a
propagated exception, or no return at all (the call hangs). -/
inductive RunOutcome where
  | ok (response : ReadableReviewResponse)
  | raised (e : Exn)
  | hangs
deriving DecidableEq

/-- `app/orchestrator.py` `run_multi_agent_review_parallel`, taking the
already-parsed change list (`parse_diff` is an external collaborator) and the
registry/flags environment.  Persisting the review to disk
(`save_review_to_file`) is Report-Sink I/O outside the core. -/
def run_multi_agent_review_parallel (changes : List ParsedChange)
    (selected_agents : Option (List String)) (reg : Registry) (flags : Flags)
    (min_severity_level : String) (cap : Nat) (time_str : String) : RunOutcome :=
  if changes.isEmpty then .ok (empty_review "No code changes detected in diff")
  else
    match get_agents selected_agents reg flags with
    | .error e => .raised e
    | .ok agents =>
      if agents.isEmpty then .ok (empty_review "No review agents enabled or selected")
      else
        match collect_as_completed (submit agents changes) with
        | none => .hangs
        | some agent_results => .ok (aggregate agent_results min_severity_level cap time_str)

/-! ## Concrete inputs used by closed conjuncts and witnesses -/

/-- The duplicated finding of Scenario A: two agents report the identical
`("auth.py", 12, "hardcoded secret")` critical finding. -/
def dup_comment (agent_name : String) : ReviewComment :=
  ⟨"auth.py", 12, .critical, agent_name, "hardcoded secret", none⟩

/-- Two successful results carrying the identical finding tuple. -/
def dup_results : List AgentResult :=
  [⟨"security", [dup_comment "security"], 1, none⟩,
   ⟨"logic", [dup_comment "logic"], 1, none⟩]

/-- A comment whose agent name contains a colon. -/
def collide_1 : ReviewComment := ⟨"f.py", 5, .minor, "a:b", "c", none⟩

/-- A comment with a different `(agent, comment)` pair but the same
concatenated `agent:comment` merge key as `collide_1`. -/
def collide_2 : ReviewComment := ⟨"f.py", 9, .minor, "a", "b:c", none⟩

/-- Scenario C input: 25 distinct findings in one (file, severity) bucket. -/
def cap_comments : List ReviewComment :=
  (List.range 25).map (fun i => ⟨"big.py", i, .major, "agent", toString i, none⟩)

/-- A change list with one parsed line. -/
def one_change : List ParsedChange := [⟨"a.py", 1, "x = 1"⟩]

/-- An agent whose `review` call never returns (its worker has no completion
instant), as happens when a remote analysis backend hangs. -/
def hang_agent : Agent := ⟨"speed_optimized_security", fun _ => .ok [], 30, none⟩

/-- An agent that completes quickly with one finding. -/
def quick_agent : Agent :=
  ⟨"speed_optimized_logic",
   fun _ => .ok [⟨"a.py", 1, .minor, "speed_optimized_logic", "note", none⟩], 2, some 2⟩

/-- An agent whose `review` raises on every input. -/
def raising_agent : Agent := ⟨"bad", fun _ => .error (.exc "boom"), 1, some 1⟩

/-- A registry environment for the hang scenario. -/
def c1_registry : Registry :=
  [("security_agent", .ok hang_agent), ("logic_agent", .ok quick_agent)]

/-- A registry environment with one constructible and one failing agent. -/
def w_registry : Registry :=
  [("security_agent", .ok quick_agent), ("performance_agent", .error (.exc "no credential"))]

/-- All agents enabled, as in the default configuration. -/
def all_flags : Flags := ⟨true, true, true, true, true⟩

/-! ## Lemmas about deduplication -/

theorem dedup_go_subset {seen : List (String × Int × String)} {l : List ReviewComment}
    {d : ReviewComment} (h : d ∈ dedup_go seen l) : d ∈ l := by
  induction l generalizing seen with
  | nil => simp [dedup_go] at h
  | cons c rest ih =>
    by_cases hc : dedupKey c ∈ seen
    · simp only [dedup_go, if_pos hc] at h
      exact List.mem_cons_of_mem _ (ih h)
    · simp only [dedup_go, if_neg hc, List.mem_cons] at h
      rcases h with h | h
      · exact h ▸ List.mem_cons_self c rest
      · exact List.mem_cons_of_mem _ (ih h)

theorem dedup_go_key_not_seen {seen : List (String × Int × String)}
    {l : List ReviewComment} {d : ReviewComment} (h : d ∈ dedup_go seen l) :
    dedupKey d ∉ seen := by
  induction l generalizing seen with
  | nil => simp [dedup_go] at h
  | cons c rest ih =>
    by_cases hc : dedupKey c ∈ seen
    · simp only [dedup_go, if_pos hc] at h
      exact ih h
    · simp only [dedup_go, if_neg hc, List.mem_cons] at h
      rcases h with h | h
      · exact h ▸ hc
      · intro hd
        exact ih h (List.mem_cons_of_mem _ hd)

theorem dedup_go_keys_nodup (seen : List (String × Int × String))
    (l : List ReviewComment) : ((dedup_go seen l).map dedupKey).Nodup := by
  induction l generalizing seen with
  | nil => simp [dedup_go]
  | cons c rest ih =>
    by_cases hc : dedupKey c ∈ seen
    · simpa only [dedup_go, if_pos hc] using ih seen
    · simp only [dedup_go, if_neg hc, List.map_cons, List.nodup_cons]
      refine ⟨?_, ih _⟩
      intro hmem
      rcases List.mem_map.mp hmem with ⟨d, hd, hkey⟩
      exact dedup_go_key_not_seen hd (hkey ▸ List.mem_cons_self _ _)

theorem dedup_go_covers {seen : List (String × Int × String)}
    {l : List ReviewComment} {c : ReviewComment} (h : c ∈ l) :
    dedupKey c ∈ seen ∨ dedupKey c ∈ (dedup_go seen l).map dedupKey := by
  induction l generalizing seen with
  | nil => simp at h
  | cons a rest ih =>
    rcases List.mem_cons.mp h with h | h
    · by_cases ha : dedupKey a ∈ seen
      · exact .inl (h ▸ ha)
      · refine .inr ?_
        simp only [dedup_go, if_neg ha, List.map_cons]
        exact h ▸ List.mem_cons_self _ _
    · by_cases ha : dedupKey a ∈ seen
      · simpa only [dedup_go, if_pos ha] using ih h
      · simp only [dedup_go, if_neg ha, List.map_cons]
        rcases @ih (dedupKey a :: seen) h with hs | ho
        · rcases List.mem_cons.mp hs with hs | hs
          · exact .inr (hs ▸ List.mem_cons_self _ _)
          · exact .inl hs
        · exact .inr (List.mem_cons_of_mem _ ho)

theorem dedup_go_find {seen : List (String × Int × String)}
    {l : List ReviewComment} {d : ReviewComment} (h : d ∈ dedup_go seen l) :
    l.find? (fun c => decide (dedupKey c = dedupKey d)) = some d := by
  induction l generalizing seen with
  | nil => simp [dedup_go] at h
  | cons c rest ih =>
    by_cases hc : dedupKey c ∈ seen
    · simp only [dedup_go, if_pos hc] at h
      have hne : dedupKey c ≠ dedupKey d := by
        intro he
        exact dedup_go_key_not_seen h (he ▸ hc)
      rw [List.find?_cons_of_neg _ (by simpa using hne)]
      exact ih h
    · simp only [dedup_go, if_neg hc, List.mem_cons] at h
      rcases h with h | h
      · subst h
        exact List.find?_cons_of_pos _ (by simp)
      · have hne : dedupKey c ≠ dedupKey d := by
          intro he
          exact dedup_go_key_not_seen h (he ▸ List.mem_cons_self _ _)
        rw [List.find?_cons_of_neg _ (by simpa using hne)]
        exact ih h

theorem dedup_go_sublist (seen : List (String × Int × String))
    (l : List ReviewComment) : (dedup_go seen l).Sublist l := by
  induction l generalizing seen with
  | nil => simp [dedup_go]
  | cons c rest ih =>
    by_cases hc : dedupKey c ∈ seen
    · simpa only [dedup_go, if_pos hc] using (ih seen).cons c
    · simpa only [dedup_go, if_neg hc] using (ih (dedupKey c :: seen)).cons₂ c

/-- C4: `_deduplicate_comments` keeps exactly one comment per
`(file, line, comment)` key; the first occurrence in list order wins and
later exact duplicates are discarded (the output is a sublist of the input
whose keys are distinct, every input key survives, and every kept comment is
the first input occurrence of its key); in the two-agent Scenario A the
Report has one finding at the duplicated key and a critical count of 1. -/
theorem dedup_first_occurrence_wins (l : List ReviewComment) :
    ((deduplicate_comments l).map dedupKey).Nodup ∧
    (deduplicate_comments l).Sublist l ∧
    (∀ c, c ∈ l → dedupKey c ∈ (deduplicate_comments l).map dedupKey) ∧
    (∀ d, d ∈ deduplicate_comments l →
      l.find? (fun c => decide (dedupKey c = dedupKey d)) = some d) ∧
    ((aggregate dup_results "info" 20 "0.1").summary.critical = 1 ∧
     (aggregate dup_results "info" 20 "0.1").summary.total_comments = 1 ∧
     files_bucket (aggregate dup_results "info" 20 "0.1").files "auth.py" .critical =
       [⟨"security", "hardcoded secret", none, [12]⟩]) := by
  refine ⟨dedup_go_keys_nodup [] l, dedup_go_sublist [] l, ?_, ?_, by decide⟩
  · intro c hc
    rcases @dedup_go_covers [] _ _ hc with hs | ho
    · simp at hs
    · exact ho
  · intro d hd
    exact dedup_go_find hd

/-- C4 witness: the deduplication theorem applied to the concrete Scenario A
comment list. -/
theorem dedup_first_occurrence_wins_witness :
    dedupKey (dup_comment "logic") ∈
      ((deduplicate_comments [dup_comment "security", dup_comment "logic"]).map dedupKey) ∧
    ([dup_comment "security", dup_comment "logic"].find?
      (fun c => decide (dedupKey c = dedupKey (dup_comment "security"))) =
      some (dup_comment "security")) := by
  refine ⟨?_, ?_⟩
  · exact (dedup_first_occurrence_wins [dup_comment "security", dup_comment "logic"]).2.2.1
      (dup_comment "logic") (by decide)
  · exact (dedup_first_occurrence_wins [dup_comment "security", dup_comment "logic"]).2.2.2.1
      (dup_comment "security") (by decide)

/-! ## Lemmas about the dict model -/

theorem alist_lookup_upsert_self {κ β : Type} [DecidableEq κ] (k : κ) (f : Option β → β)
    (m : List (κ × β)) : alist_lookup k (upsert k f m) = some (f (alist_lookup k m)) := by
  induction m with
  | nil => simp [upsert, alist_lookup]
  | cons p rest ih =>
    obtain ⟨k', v⟩ := p
    by_cases hk : k' = k
    · subst hk
      simp [upsert, alist_lookup]
    · simp [upsert, alist_lookup, hk, ih]

theorem alist_lookup_upsert_other {κ β : Type} [DecidableEq κ] {k k' : κ} (h : k' ≠ k)
    (f : Option β → β) (m : List (κ × β)) :
    alist_lookup k' (upsert k f m) = alist_lookup k' m := by
  induction m with
  | nil => simp [upsert, alist_lookup, Ne.symm h]
  | cons p rest ih =>
    obtain ⟨a, v⟩ := p
    by_cases ha : a = k
    · subst ha
      simp [upsert, alist_lookup, Ne.symm h]
    · simp [upsert, alist_lookup, ha, ih]

theorem alist_lookup_mem {κ β : Type} [DecidableEq κ] {k : κ} {v : β} {m : List (κ × β)}
    (h : alist_lookup k m = some v) : (k, v) ∈ m := by
  induction m with
  | nil => simp [alist_lookup] at h
  | cons p rest ih =>
    obtain ⟨a, w⟩ := p
    by_cases ha : a = k
    · subst ha
      simp [alist_lookup] at h
      subst h
      exact List.mem_cons_self _ _
    · simp only [alist_lookup, if_neg ha] at h
      exact List.mem_cons_of_mem _ (ih h)

theorem mem_upsert {κ β : Type} [DecidableEq κ] {k : κ} {f : Option β → β}
    {m : List (κ × β)} {p : κ × β} (h : p ∈ upsert k f m) :
    p ∈ m ∨ p = (k, f (alist_lookup k m)) := by
  induction m with
  | nil =>
    right
    simp only [upsert, List.mem_singleton] at h
    subst h
    simp [alist_lookup]
  | cons q rest ih =>
    obtain ⟨a, v⟩ := q
    by_cases ha : a = k
    · subst ha
      simp only [upsert, if_true, eq_self_iff_true, List.mem_cons] at h
      rcases h with h | h
      · subst h
        right
        simp [alist_lookup]
      · left
        exact List.mem_cons_of_mem _ h
    · simp only [upsert, if_neg ha, List.mem_cons] at h
      rcases h with h | h
      · subst h
        left
        exact List.mem_cons_self _ _
      · rcases ih h with h' | h'
        · left
          exact List.mem_cons_of_mem _ h'
        · subst h'
          right
          simp [alist_lookup, ha]

theorem mem_keys_upsert {κ β : Type} [DecidableEq κ] {k k'' : κ} {f : Option β → β}
    {m : List (κ × β)} (h : k'' ∈ (upsert k f m).map (fun p => p.1)) :
    k'' ∈ m.map (fun p => p.1) ∨ k'' = k := by
  rcases List.mem_map.mp h with ⟨p, hp, hk⟩
  rcases mem_upsert hp with h' | h'
  · exact .inl (hk ▸ List.mem_map_of_mem _ h')
  · right
    rw [← hk, h']

theorem keys_nodup_upsert {κ β : Type} [DecidableEq κ] (k : κ) (f : Option β → β)
    {m : List (κ × β)} (h : (m.map (fun p => p.1)).Nodup) :
    ((upsert k f m).map (fun p => p.1)).Nodup := by
  induction m with
  | nil => simp [upsert]
  | cons q rest ih =>
    obtain ⟨a, v⟩ := q
    simp only [List.map_cons, List.nodup_cons] at h
    by_cases ha : a = k
    · subst ha
      have hrw : upsert a f ((a, v) :: rest) = (a, f (some v)) :: rest := by
        simp [upsert]
      rw [hrw]
      simp only [List.map_cons, List.nodup_cons]
      exact h
    · simp only [upsert, if_neg ha, List.map_cons, List.nodup_cons]
      refine ⟨?_, ih h.2⟩
      intro hmem
      rcases mem_keys_upsert hmem with h' | h'
      · exact h.1 h'
      · exact ha h'

/-! ## Lemmas about grouping -/

theorem group_bucket_step (m : List (String × List (Severity × List ReviewComment)))
    (c : ReviewComment) (f : String) (s : Severity) :
    group_bucket (group_step m c) f s =
      group_bucket m f s ++ (if c.file = f ∧ c.severity = s then [c] else []) := by
  by_cases hf : c.file = f
  · subst hf
    by_cases hs : c.severity = s
    · subst hs
      simp [group_bucket, group_step, alist_lookup_upsert_self]
    · rw [if_neg (fun hand => hs hand.2), List.append_nil]
      simp only [group_bucket, group_step, alist_lookup_upsert_self, Option.getD_some]
      rw [alist_lookup_upsert_other (fun he => hs he.symm)]
  · rw [if_neg (fun hand => hf hand.1), List.append_nil]
    simp only [group_bucket, group_step]
    rw [alist_lookup_upsert_other (fun he => hf he.symm)]

theorem group_bucket_foldl (l : List ReviewComment)
    (m : List (String × List (Severity × List ReviewComment))) (f : String) (s : Severity) :
    group_bucket (l.foldl group_step m) f s =
      group_bucket m f s ++
        l.filter (fun c => decide (c.file = f) && decide (c.severity = s)) := by
  induction l generalizing m with
  | nil => simp
  | cons c rest ih =>
    simp only [List.foldl_cons]
    rw [ih, group_bucket_step]
    by_cases hc : c.file = f ∧ c.severity = s
    · rw [if_pos hc, List.append_assoc]
      simp [List.filter_cons, hc.1, hc.2]
    · rw [if_neg hc, List.append_nil]
      rcases not_and_or.mp hc with h | h <;> simp [List.filter_cons, h]

theorem group_bucket_eq_filter (l : List ReviewComment) (f : String) (s : Severity) :
    group_bucket (group_by_file_severity l) f s =
      l.filter (fun c => decide (c.file = f) && decide (c.severity = s)) := by
  have h := group_bucket_foldl l [] f s
  simpa [group_by_file_severity, group_bucket, alist_lookup] using h

/-! ## Lemmas about the merge phase -/

theorem merge_step_mono {m : List (String × ReadableAgentComment)} {c : ReviewComment}
    {K : String} {e : ReadableAgentComment} {x : Int}
    (h : alist_lookup K m = some e) (hx : x ∈ e.lines) :
    ∃ e', alist_lookup K (merge_step m c) = some e' ∧ x ∈ e'.lines ∧
      e'.agent = e.agent ∧ e'.comment = e.comment := by
  by_cases hk : K = merge_key c
  · subst hk
    rw [merge_step, alist_lookup_upsert_self, h]
    by_cases hl : c.line ∈ e.lines
    · exact ⟨e, by simp [hl], hx, rfl, rfl⟩
    · exact ⟨{ e with lines := e.lines ++ [c.line] }, by simp [hl],
        List.mem_append_left _ hx, rfl, rfl⟩
  · rw [merge_step, alist_lookup_upsert_other hk]
    exact ⟨e, h, hx, rfl, rfl⟩

theorem merge_fold_mono {cs : List ReviewComment}
    {m : List (String × ReadableAgentComment)} {K : String}
    {e : ReadableAgentComment} {x : Int}
    (h : alist_lookup K m = some e) (hx : x ∈ e.lines) :
    ∃ e', alist_lookup K (cs.foldl merge_step m) = some e' ∧ x ∈ e'.lines ∧
      e'.agent = e.agent ∧ e'.comment = e.comment := by
  induction cs generalizing m e with
  | nil => exact ⟨e, h, hx, rfl, rfl⟩
  | cons c rest ih =>
    rcases @merge_step_mono _ c _ _ _ h hx with ⟨e', h', hx', hag, hcm⟩
    rcases ih h' hx' with ⟨e'', h'', hx'', hag', hcm'⟩
    exact ⟨e'', h'', hx'', hag'.trans hag, hcm'.trans hcm⟩

theorem merge_step_seed (m : List (String × ReadableAgentComment)) (c : ReviewComment) :
    ∃ e, alist_lookup (merge_key c) (merge_step m c) = some e ∧ c.line ∈ e.lines := by
  rw [merge_step, alist_lookup_upsert_self]
  cases hm : alist_lookup (merge_key c) m with
  | none => exact ⟨_, rfl, by simp⟩
  | some e =>
    by_cases hl : c.line ∈ e.lines
    · exact ⟨e, by simp [hl], hl⟩
    · exact ⟨{ e with lines := e.lines ++ [c.line] }, by simp [hl], by simp⟩

theorem merge_fold_covers {cs : List ReviewComment}
    {m : List (String × ReadableAgentComment)} {c : ReviewComment} (hc : c ∈ cs) :
    ∃ e, alist_lookup (merge_key c) (cs.foldl merge_step m) = some e ∧ c.line ∈ e.lines := by
  induction cs generalizing m with
  | nil => simp at hc
  | cons a rest ih =>
    rcases List.mem_cons.mp hc with h | h
    · subst h
      simp only [List.foldl_cons]
      rcases merge_step_seed m c with ⟨e, he, hl⟩
      rcases @merge_fold_mono rest _ _ _ _ he hl with ⟨e', h', hx', _, _⟩
      exact ⟨e', h', hx'⟩
    · simp only [List.foldl_cons]
      exact ih h

theorem merge_fold_key {cs : List ReviewComment}
    {m : List (String × ReadableAgentComment)}
    (hm : ∀ p ∈ m, p.1 = p.2.agent ++ ":" ++ p.2.comment) :
    ∀ p ∈ cs.foldl merge_step m, p.1 = p.2.agent ++ ":" ++ p.2.comment := by
  induction cs generalizing m with
  | nil => exact hm
  | cons c rest ih =>
    simp only [List.foldl_cons]
    refine ih ?_
    intro p hp
    rcases mem_upsert hp with h | h
    · exact hm p h
    · cases he : alist_lookup (merge_key c) m with
      | none =>
        rw [he] at h
        subst h
        rfl
      | some e =>
        rw [he] at h
        subst h
        have := hm _ (alist_lookup_mem he)
        by_cases hl : c.line ∈ e.lines <;> simp [hl, merge_key] <;>
          simpa [merge_key] using this

theorem merge_fold_from {cs : List ReviewComment}
    {m : List (String × ReadableAgentComment)} {p : String × ReadableAgentComment}
    (hp : p ∈ cs.foldl merge_step m) :
    (∃ q ∈ m, p.2.agent = q.2.agent ∧ p.2.comment = q.2.comment) ∨
    (∃ c ∈ cs, p.2.agent = c.agent ∧ p.2.comment = c.comment) := by
  induction cs generalizing m with
  | nil => exact .inl ⟨p, hp, rfl, rfl⟩
  | cons c rest ih =>
    simp only [List.foldl_cons] at hp
    rcases ih hp with ⟨q, hq, hag, hcm⟩ | ⟨c', hc', hag, hcm⟩
    · rcases mem_upsert hq with h | h
      · exact .inl ⟨q, h, hag, hcm⟩
      · cases he : alist_lookup (merge_key c) m with
        | none =>
          rw [he] at h
          subst h
          exact .inr ⟨c, List.mem_cons_self _ _, hag, hcm⟩
        | some e =>
          rw [he] at h
          subst h
          refine .inl ⟨(merge_key c, e), alist_lookup_mem he, ?_, ?_⟩
          · by_cases hl : c.line ∈ e.lines <;> simpa [hl] using hag
          · by_cases hl : c.line ∈ e.lines <;> simpa [hl] using hcm
    · exact .inr ⟨c', List.mem_cons_of_mem _ hc', hag, hcm⟩

theorem merge_fold_lines_nodup {cs : List ReviewComment}
    {m : List (String × ReadableAgentComment)}
    (hm : ∀ p ∈ m, p.2.lines.Nodup) :
    ∀ p ∈ cs.foldl merge_step m, p.2.lines.Nodup := by
  induction cs generalizing m with
  | nil => exact hm
  | cons c rest ih =>
    simp only [List.foldl_cons]
    refine ih ?_
    intro p hp
    rcases mem_upsert hp with h | h
    · exact hm p h
    · cases he : alist_lookup (merge_key c) m with
      | none =>
        rw [he] at h
        subst h
        simp
      | some e =>
        rw [he] at h
        subst h
        have hend := hm _ (alist_lookup_mem he)
        by_cases hl : c.line ∈ e.lines
        · simpa [hl] using hend
        · simp only [hl, if_neg, ite_false]
          simpa [List.concat_eq_append] using hend.concat hl

theorem merge_fold_keys_nodup (cs : List ReviewComment)
    {m : List (String × ReadableAgentComment)}
    (hm : (m.map (fun p => p.1)).Nodup) :
    ((cs.foldl merge_step m).map (fun p => p.1)).Nodup := by
  induction cs generalizing m with
  | nil => exact hm
  | cons c rest ih =>
    simp only [List.foldl_cons]
    exact ih (keys_nodup_upsert _ _ hm)

theorem merge_bucket_covers {cs : List ReviewComment} {c : ReviewComment} (hc : c ∈ cs) :
    ∃ e ∈ merge_bucket cs, e.agent ++ ":" ++ e.comment = merge_key c ∧ c.line ∈ e.lines := by
  rcases @merge_fold_covers _ [] _ hc with ⟨e, he, hl⟩
  have hkey := @merge_fold_key cs [] (by simp) _ (alist_lookup_mem he)
  exact ⟨e, List.mem_map_of_mem _ (alist_lookup_mem he), hkey.symm, hl⟩

theorem merge_bucket_from {cs : List ReviewComment} {e : ReadableAgentComment}
    (he : e ∈ merge_bucket cs) :
    ∃ c ∈ cs, e.agent = c.agent ∧ e.comment = c.comment := by
  rcases List.mem_map.mp he with ⟨p, hp, hpe⟩
  rcases merge_fold_from hp with ⟨q, hq, _⟩ | ⟨c, hc, hag, hcm⟩
  · simp at hq
  · exact ⟨c, hc, hpe ▸ hag, hpe ▸ hcm⟩

theorem merge_bucket_lines_nodup {cs : List ReviewComment} {e : ReadableAgentComment}
    (he : e ∈ merge_bucket cs) : e.lines.Nodup := by
  rcases List.mem_map.mp he with ⟨p, hp, hpe⟩
  exact hpe ▸ @merge_fold_lines_nodup _ [] (by simp) p hp

theorem merge_bucket_keys_nodup (cs : List ReviewComment) :
    ((merge_bucket cs).map (fun e => e.agent ++ ":" ++ e.comment)).Nodup := by
  have hkeys := @merge_fold_keys_nodup cs [] (by simp)
  have heq : (cs.foldl merge_step []).map (fun p => p.1) =
      ((cs.foldl merge_step []).map (fun p => p.2)).map
        (fun e => e.agent ++ ":" ++ e.comment) := by
    rw [List.map_map]
    exact List.map_congr_left (fun p hp => merge_fold_key (by simp) p hp)
  rw [heq] at hkeys
  exact hkeys

/-! ## Lemmas about flattening and the structured report -/

theorem foldl_append_comments (l : List AgentResult) (acc : List ReviewComment) :
    l.foldl (fun acc r => acc ++ r.comments) acc = acc ++ l.flatMap (fun r => r.comments) := by
  induction l generalizing acc with
  | nil => simp
  | cons r rest ih => simp [ih, List.append_assoc]

theorem flatten_successful_eq (results : List AgentResult) :
    flatten_successful results =
      (results.filter (fun r => r.success)).flatMap (fun r => r.comments) := by
  simp [flatten_successful, foldl_append_comments]

theorem severity_gate_subset {floor : String} {l : List ReviewComment} {c : ReviewComment}
    (h : c ∈ severity_gate floor l) : c ∈ l := by
  unfold severity_gate at h
  by_cases hf : floor = "info"
  · simpa [hf] using h
  · rw [if_pos hf] at h
    exact (List.mem_filter.mp h).1

theorem alist_lookup_files_map (cap : Nat) (k : String)
    (m : List (String × List (Severity × List ReviewComment))) :
    alist_lookup k
      (m.map (fun fp => (fp.1, fp.2.map (fun sp => (sp.1, cap_bucket cap (merge_bucket sp.2)))))) =
      (alist_lookup k m).map
        (fun inner => inner.map (fun sp => (sp.1, cap_bucket cap (merge_bucket sp.2)))) := by
  induction m with
  | nil => simp [alist_lookup]
  | cons p rest ih =>
    obtain ⟨a, v⟩ := p
    by_cases ha : a = k
    · subst ha
      simp [alist_lookup]
    · simp [alist_lookup, ha, ih]

theorem alist_lookup_sev_map (cap : Nat) (k : Severity)
    (m : List (Severity × List ReviewComment)) :
    alist_lookup k (m.map (fun sp => (sp.1, cap_bucket cap (merge_bucket sp.2)))) =
      (alist_lookup k m).map (fun cs => cap_bucket cap (merge_bucket cs)) := by
  induction m with
  | nil => simp [alist_lookup]
  | cons p rest ih =>
    obtain ⟨a, v⟩ := p
    by_cases ha : a = k
    · subst ha
      simp [alist_lookup]
    · simp [alist_lookup, ha, ih]

theorem cap_bucket_eq_take (cap : Nat) (l : List ReadableAgentComment) :
    cap_bucket cap l = l.take cap := by
  unfold cap_bucket
  by_cases h : l.length > cap
  · rw [if_pos h]
  · rw [if_neg h, List.take_of_length_le (Nat.le_of_not_lt h)]

theorem files_bucket_structure (cap : Nat) (comments : List ReviewComment)
    (f : String) (s : Severity) :
    files_bucket (structure_comments cap comments).files f s =
      cap_bucket cap (merge_bucket (group_bucket (group_by_file_severity comments) f s)) := by
  dsimp only [files_bucket, structure_comments, group_bucket]
  rw [alist_lookup_files_map]
  cases hf : alist_lookup f (group_by_file_severity comments) with
  | none =>
    simp [alist_lookup, merge_bucket, cap_bucket]
  | some inner =>
    simp only [Option.map_some', Option.getD_some]
    rw [alist_lookup_sev_map]
    cases hs : alist_lookup s inner with
    | none => simp [merge_bucket, cap_bucket]
    | some cs => simp

theorem structure_warning_of_overflow {cap : Nat} {comments : List ReviewComment}
    {f : String} {s : Severity}
    (h : (merge_bucket (group_bucket (group_by_file_severity comments) f s)).length > cap) :
    (f, (merge_bucket (group_bucket (group_by_file_severity comments) f s)).length) ∈
      (structure_comments cap comments).warnings := by
  cases hf : alist_lookup f (group_by_file_severity comments) with
  | none =>
    rw [group_bucket, hf] at h
    simp [alist_lookup, merge_bucket] at h
  | some inner =>
    cases hs : alist_lookup s inner with
    | none =>
      rw [group_bucket, hf] at h
      simp only [Option.getD_some] at h
      rw [hs] at h
      simp [merge_bucket] at h
    | some cs =>
      have hcs : group_bucket (group_by_file_severity comments) f s = cs := by
        rw [group_bucket, hf]
        simp only [Option.getD_some]
        rw [hs]
        rfl
      rw [hcs] at h ⊢
      dsimp only [structure_comments]
      simp only [List.mem_flatMap]
      refine ⟨(f, inner), alist_lookup_mem hf, ?_⟩
      simp only [List.mem_filterMap]
      exact ⟨(s, cs), alist_lookup_mem hs, by simp [h]⟩

theorem count_severity_sum (u : List ReviewComment) :
    count_severity .critical u + count_severity .major u + count_severity .minor u +
      count_severity .info u = u.length := by
  induction u with
  | nil => simp [count_severity]
  | cons c rest ih =>
    simp only [count_severity, List.countP_cons, List.length_cons] at ih ⊢
    cases hc : c.severity <;> simp [hc] <;> omega

theorem build_summary_total_eq_sum (u : List ReviewComment) (results : List AgentResult)
    (t : String) :
    (build_summary u results t).total_comments =
      (build_summary u results t).critical + (build_summary u results t).major +
      (build_summary u results t).minor + (build_summary u results t).info := by
  simp only [build_summary]
  exact (count_severity_sum u).symm

/-- C8: an empty parsed change sequence short-circuits to the empty Report
("No code changes detected in diff") with zero totals, zero per-severity
counts and an empty files mapping, and the result does not depend on the
agent selection, registry or flags — no agent is constructed or invoked. -/
theorem empty_diff_short_circuits (sel : Option (List String)) (reg : Registry)
    (flags : Flags) (floor t : String) (cap : Nat) :
    run_multi_agent_review_parallel [] sel reg flags floor cap t =
      .ok (empty_review "No code changes detected in diff") ∧
    (∀ sel2 reg2 flags2, run_multi_agent_review_parallel [] sel2 reg2 flags2 floor cap t =
      run_multi_agent_review_parallel [] sel reg flags floor cap t) ∧
    (empty_review "No code changes detected in diff").summary.total_comments = 0 ∧
    (empty_review "No code changes detected in diff").summary.critical = 0 ∧
    (empty_review "No code changes detected in diff").summary.major = 0 ∧
    (empty_review "No code changes detected in diff").summary.minor = 0 ∧
    (empty_review "No code changes detected in diff").summary.info = 0 ∧
    (empty_review "No code changes detected in diff").summary.message =
      "No code changes detected in diff" ∧
    (empty_review "No code changes detected in diff").files = [] :=
  ⟨rfl, fun _ _ _ => rfl, rfl, rfl, rfl, rfl, rfl, rfl, rfl⟩

/-- C10: the summary's `total_comments` equals the sum of the four
per-severity counts, and the summary tallies the deduplicated,
severity-filtered comment list as it stands before the per-file cap: it is
exactly `_build_summary` of that list, its total is that list's length, and
it is unchanged by the cap — findings later dropped by truncation are still
counted. -/
theorem summary_counts_precap (results : List AgentResult) (floor t : String)
    (cap cap2 : Nat) :
    ((aggregate results floor cap t).summary.total_comments =
      (aggregate results floor cap t).summary.critical +
      (aggregate results floor cap t).summary.major +
      (aggregate results floor cap t).summary.minor +
      (aggregate results floor cap t).summary.info) ∧
    ((aggregate results floor cap t).summary =
      build_summary (severity_gate floor (deduplicate_comments (flatten_successful results)))
        results t) ∧
    ((aggregate results floor cap t).summary.total_comments =
      (severity_gate floor (deduplicate_comments (flatten_successful results))).length) ∧
    ((aggregate results floor cap t).summary = (aggregate results floor cap2 t).summary) :=
  ⟨build_summary_total_eq_sum _ results t, rfl, rfl, rfl⟩

/-- C6: within each (file, severity) bucket the report keeps exactly the
first `cap` merged entries (the earliest-produced), the dropped entries are
the latest-produced suffix, and an over-cap bucket emits a truncation warning
`(file, original count)`; Scenario C: 25 distinct findings under a cap of 20
yield exactly 20 entries and a logged `("big.py", 25)` warning. -/
theorem per_file_cap (cap : Nat) (comments : List ReviewComment) (f : String) (s : Severity) :
    files_bucket (structure_comments cap comments).files f s =
      (merge_bucket (group_bucket (group_by_file_severity comments) f s)).take cap ∧
    (files_bucket (structure_comments cap comments).files f s).length =
      min cap (merge_bucket (group_bucket (group_by_file_severity comments) f s)).length ∧
    files_bucket (structure_comments cap comments).files f s ++
      (merge_bucket (group_bucket (group_by_file_severity comments) f s)).drop cap =
      merge_bucket (group_bucket (group_by_file_severity comments) f s) ∧
    ((merge_bucket (group_bucket (group_by_file_severity comments) f s)).length > cap →
      (f, (merge_bucket (group_bucket (group_by_file_severity comments) f s)).length) ∈
        (structure_comments cap comments).warnings) ∧
    ((files_bucket (structure_comments 20 cap_comments).files "big.py" .major).length = 20 ∧
     cap_comments.length = 25 ∧
     (cap_comments.map dedupKey).Nodup ∧
     (structure_comments 20 cap_comments).warnings = [("big.py", 25)]) := by
  have h := files_bucket_structure cap comments f s
  rw [cap_bucket_eq_take] at h
  refine ⟨h, ?_, ?_, ?_, by decide⟩
  · rw [h]
    exact List.length_take cap _
  · rw [h]
    exact List.take_append_drop cap _
  · exact fun hover => structure_warning_of_overflow hover

/-- C6 witness: the cap theorem applied to the 25-findings, cap-20 input. -/
theorem per_file_cap_witness :
    (merge_bucket (group_bucket (group_by_file_severity cap_comments) "big.py" .major)).length
      > 20 ∧
    ("big.py",
      (merge_bucket (group_bucket (group_by_file_severity cap_comments) "big.py" .major)).length)
      ∈ (structure_comments 20 cap_comments).warnings :=
  ⟨by decide, (per_file_cap 20 cap_comments "big.py" .major).2.2.2.1 (by decide)⟩

theorem mem_filter_by_severity {floor : String} {l : List ReviewComment} {c : ReviewComment} :
    c ∈ filter_by_severity floor l ↔
      c ∈ l ∧ severity_order c.severity ≤ severity_order_get floor := by
  simp [filter_by_severity, List.mem_filter]

theorem group_bucket_filter_major_high (l : List ReviewComment) (f : String) (s : Severity)
    (hs : s = .critical ∨ s = .major) :
    group_bucket (group_by_file_severity (filter_by_severity "major" l)) f s =
      group_bucket (group_by_file_severity l) f s := by
  rw [group_bucket_eq_filter, group_bucket_eq_filter, filter_by_severity, List.filter_filter]
  refine List.filter_congr ?_
  intro c _
  by_cases hcs : c.severity = s
  · have hle : severity_order c.severity ≤ severity_order_get "major" := by
      rw [hcs]
      rcases hs with h | h <;> subst h <;> decide
    simp [hle]
  · simp [hcs]

theorem group_bucket_filter_major_low (l : List ReviewComment) (f : String) (s : Severity)
    (hs : s = .minor ∨ s = .info) :
    group_bucket (group_by_file_severity (filter_by_severity "major" l)) f s = [] := by
  rw [group_bucket_eq_filter, filter_by_severity, List.filter_filter]
  rw [List.filter_eq_nil_iff]
  intro c _ hcontra
  simp only [Bool.and_eq_true, decide_eq_true_eq] at hcontra
  obtain ⟨⟨_, hsev⟩, hord⟩ := hcontra
  rw [hsev] at hord
  rcases hs with h | h <;> subst h <;> simp [severity_order, severity_order_get] at hord

/-- C7: severity filtering runs iff the configured floor is stricter than
`info` (the pipeline gates on `floor != "info"`), and `_filter_by_severity`
keeps exactly the comments whose severity is at or above the floor in the
total order critical > major > minor > info; with floor `major`, all `minor`
and `info` findings are dropped while the (file, severity) grouping of the
retained findings is unchanged. -/
theorem severity_filter_correct (floor : String)
    (hfloor : floor = "critical" ∨ floor = "major" ∨ floor = "minor" ∨ floor = "info") :
    (floor ≠ "info" ↔ severity_order_get floor < severity_order_get "info") ∧
    (∀ l, floor = "info" → severity_gate floor l = l) ∧
    (∀ l, floor ≠ "info" → severity_gate floor l = filter_by_severity floor l) ∧
    (∀ l c, c ∈ filter_by_severity floor l ↔
      c ∈ l ∧ severity_order c.severity ≤ severity_order_get floor) ∧
    (∀ l c, c ∈ filter_by_severity "major" l ↔
      c ∈ l ∧ (c.severity = .critical ∨ c.severity = .major)) ∧
    (∀ l f s, s = .critical ∨ s = .major →
      group_bucket (group_by_file_severity (filter_by_severity "major" l)) f s =
        group_bucket (group_by_file_severity l) f s) ∧
    (∀ l f s, s = .minor ∨ s = .info →
      group_bucket (group_by_file_severity (filter_by_severity "major" l)) f s = []) := by
  refine ⟨?_, ?_, ?_, fun l c => mem_filter_by_severity, ?_,
    group_bucket_filter_major_high, group_bucket_filter_major_low⟩
  · rcases hfloor with h | h | h | h <;> subst h <;> decide
  · intro l h
    simp [severity_gate, h]
  · intro l h
    simp [severity_gate, h]
  · intro l c
    rw [mem_filter_by_severity]
    refine and_congr_right fun _ => ?_
    cases hs : c.severity <;> simp [hs] <;> decide

/-- C7 witness: the filter theorem applied at floor `major` and a concrete
minor/critical comment list. -/
theorem severity_filter_correct_witness :
    ("major" ≠ "info" ↔ severity_order_get "major" < severity_order_get "info") ∧
    severity_gate "major" [dup_comment "security"] =
      filter_by_severity "major" [dup_comment "security"] :=
  ⟨(severity_filter_correct "major" (by decide)).1,
   (severity_filter_correct "major" (by decide)).2.2.1 [dup_comment "security"] (by decide)⟩

/-- C3: every finding surfaced in the final Report comes from a successful
result: the flatten step concatenates, in collection order, only the comments
of results with `success` true; a failed or timed-out result contributes
nothing, and removing it leaves the Report's files section unchanged; every
merged entry in the structured files traces back to a comment of a
successful result. -/
theorem report_findings_only_from_successful (results : List AgentResult)
    (floor t : String) (cap : Nat) :
    (∀ c ∈ flatten_successful results, ∃ r ∈ results, r.success = true ∧ c ∈ r.comments) ∧
    (flatten_successful results =
      (results.filter (fun r => r.success)).flatMap (fun r => r.comments)) ∧
    (∀ pre post r, r.success = false →
      flatten_successful (pre ++ r :: post) = flatten_successful (pre ++ post)) ∧
    (∀ pre post r, r.success = false →
      (aggregate (pre ++ r :: post) floor cap t).files =
        (aggregate (pre ++ post) floor cap t).files) ∧
    (∀ f s e, e ∈ files_bucket (aggregate results floor cap t).files f s →
      ∃ r ∈ results, r.success = true ∧
        ∃ c ∈ r.comments, e.agent = c.agent ∧ e.comment = c.comment) := by
  have hdrop : ∀ pre post (r : AgentResult), r.success = false →
      flatten_successful (pre ++ r :: post) = flatten_successful (pre ++ post) := by
    intro pre post r hr
    simp only [flatten_successful, List.filter_append, List.filter_cons, hr,
      Bool.false_eq_true, if_false]
  have hfrom : ∀ c ∈ flatten_successful results,
      ∃ r ∈ results, r.success = true ∧ c ∈ r.comments := by
    intro c hc
    rw [flatten_successful_eq] at hc
    rcases List.mem_flatMap.mp hc with ⟨r, hr, hcr⟩
    have hm := List.mem_filter.mp hr
    exact ⟨r, hm.1, hm.2, hcr⟩
  refine ⟨hfrom, flatten_successful_eq results, hdrop, ?_, ?_⟩
  · intro pre post r hr
    dsimp only [aggregate]
    rw [hdrop pre post r hr]
  · intro f s e he
    rw [show (aggregate results floor cap t).files =
      (structure_comments cap (severity_gate floor
        (deduplicate_comments (flatten_successful results)))).files from rfl] at he
    rw [files_bucket_structure, cap_bucket_eq_take] at he
    have he2 := List.take_subset cap _ he
    rcases merge_bucket_from he2 with ⟨c, hc, hag, hcm⟩
    rw [group_bucket_eq_filter] at hc
    have hc2 := (List.mem_filter.mp hc).1
    have hc3 := dedup_go_subset (severity_gate_subset hc2)
    rcases hfrom c hc3 with ⟨r, hr, hrs, hcr⟩
    exact ⟨r, hr, hrs, c, hcr, hag, hcm⟩

/-- C3 witness: the provenance theorem applied to the Scenario A results and
to a concrete failed result. -/
theorem report_findings_only_from_successful_witness :
    (∃ r ∈ dup_results, r.success = true ∧ dup_comment "security" ∈ r.comments) ∧
    flatten_successful ([⟨"a", [], 1, none⟩] ++ ⟨"b", [], 1, some (.exc "x")⟩ :: []) =
      flatten_successful ([(⟨"a", [], 1, none⟩ : AgentResult)] ++ []) :=
  ⟨(report_findings_only_from_successful dup_results "info" "0.1" 20).1
      (dup_comment "security") (by decide),
   (report_findings_only_from_successful dup_results "info" "0.1" 20).2.2.1
      [⟨"a", [], 1, none⟩] [] ⟨"b", [], 1, some (.exc "x")⟩ (by decide)⟩

theorem run_agent_safe_success (a : Agent) (changes : List ParsedChange) :
    (run_agent_safe a changes).success = (a.review changes).isOk := by
  unfold run_agent_safe
  cases a.review changes <;> rfl

theorem filter_success_map (agents : List Agent) (changes : List ParsedChange) :
    (agents.map (fun a => run_agent_safe a changes)).filter (fun r => r.success) =
      (agents.filter (fun a => (a.review changes).isOk)).map
        (fun a => run_agent_safe a changes) := by
  induction agents with
  | nil => rfl
  | cons a rest ih =>
    simp only [List.map_cons, List.filter_cons, run_agent_safe_success]
    by_cases h : (a.review changes).isOk = true
    · simp [h, ih]
    · simp [h, ih]

/-- C2: `run_agent_safe` is total: a raising `review` is converted into an
`AgentResult` with the error recorded, `success` false and empty comments,
with the duration recorded on both paths; consequently, for a batch of
`pre ++ bad :: post` agents where exactly `bad` raises, the summary counts
`(n-1)/n` successful agents and its message embeds that ratio, the flatten
step carries every finding of the other `n-1` agents, and the Report's files
are identical to those of the batch without the raising agent. -/
theorem run_agent_safe_isolation (changes : List ParsedChange) (pre post : List Agent)
    (bad : Agent) (e : Exn) (t floor : String) (cap : Nat)
    (hbad : bad.review changes = .error e)
    (hok : ∀ a, a ∈ pre ++ post → (a.review changes).isOk = true) :
    run_agent_safe bad changes = ⟨bad.name, [], bad.duration, some e⟩ ∧
    (run_agent_safe bad changes).success = false ∧
    (∀ a cs, a.review changes = .ok cs →
      run_agent_safe a changes = ⟨a.name, cs, a.duration, none⟩ ∧
      (run_agent_safe a changes).success = true) ∧
    (((pre ++ bad :: post).map (fun a => run_agent_safe a changes)).filter
        (fun r => r.success)).length = pre.length + post.length ∧
    ((pre ++ bad :: post).map (fun a => run_agent_safe a changes)).length =
      pre.length + post.length + 1 ∧
    flatten_successful ((pre ++ bad :: post).map (fun a => run_agent_safe a changes)) =
      (pre ++ post).flatMap (fun a => (run_agent_safe a changes).comments) ∧
    (∀ a, a ∈ pre ++ post → ∀ c ∈ (run_agent_safe a changes).comments,
      c ∈ flatten_successful ((pre ++ bad :: post).map (fun a => run_agent_safe a changes))) ∧
    (∀ u, u ≠ [] →
      (build_summary u ((pre ++ bad :: post).map (fun a => run_agent_safe a changes)) t).message
        = summary_message u.length t (pre.length + post.length) (pre.length + post.length + 1)
          (count_severity .critical u) (count_severity .major u)
          (count_severity .minor u) (count_severity .info u)) ∧
    (aggregate ((pre ++ bad :: post).map (fun a => run_agent_safe a changes)) floor cap t).files
      = (aggregate ((pre ++ post).map (fun a => run_agent_safe a changes)) floor cap t).files
    := by
  have hbadres : run_agent_safe bad changes = ⟨bad.name, [], bad.duration, some e⟩ := by
    unfold run_agent_safe
    rw [hbad]
  have hbadok : (bad.review changes).isOk = false := by
    rw [hbad]
    rfl
  have hagents : (pre ++ bad :: post).filter (fun a => (a.review changes).isOk) = pre ++ post := by
    have h1 : pre.filter (fun a => (a.review changes).isOk) = pre :=
      List.filter_eq_self.mpr (fun a ha => hok a (List.mem_append_left _ ha))
    have h2 : post.filter (fun a => (a.review changes).isOk) = post :=
      List.filter_eq_self.mpr (fun a ha => hok a (List.mem_append_right _ ha))
    rw [List.filter_append, List.filter_cons, h1, h2, hbadok]
    simp
  have hagents2 : (pre ++ post).filter (fun a => (a.review changes).isOk) = pre ++ post :=
    List.filter_eq_self.mpr hok
  have hsucc : ((pre ++ bad :: post).map (fun a => run_agent_safe a changes)).filter
      (fun r => r.success) = (pre ++ post).map (fun a => run_agent_safe a changes) := by
    rw [filter_success_map, hagents]
  have hflatL : flatten_successful ((pre ++ bad :: post).map (fun a => run_agent_safe a changes))
      = (pre ++ post).flatMap (fun a => (run_agent_safe a changes).comments) := by
    rw [flatten_successful_eq, hsucc, List.flatMap_map]
  have hflatR : flatten_successful ((pre ++ post).map (fun a => run_agent_safe a changes))
      = (pre ++ post).flatMap (fun a => (run_agent_safe a changes).comments) := by
    rw [flatten_successful_eq, filter_success_map, hagents2, List.flatMap_map]
  refine ⟨hbadres, by rw [hbadres]; rfl, ?_, ?_, ?_, hflatL, ?_, ?_, ?_⟩
  · intro a cs h
    constructor
    · unfold run_agent_safe
      rw [h]
    · rw [run_agent_safe_success, h]
      rfl
  · rw [hsucc, List.length_map, List.length_append]
  · rw [List.length_map, List.length_append, List.length_cons]
    omega
  · intro a ha c hc
    rw [hflatL]
    exact List.mem_flatMap.mpr ⟨a, ha, hc⟩
  · intro u hu
    have hne : ¬ (u.length = 0) := fun h => hu (List.length_eq_zero.mp h)
    simp only [build_summary, hne, if_false, hsucc, List.length_map, List.length_append,
      List.length_cons]
    have : pre.length + (post.length + 1) = pre.length + post.length + 1 := by omega
    rw [this]
  · dsimp only [aggregate]
    rw [hflatL, hflatR]

/-- C2 witness: the isolation theorem applied to one good and one raising
agent on a one-line change list. -/
theorem run_agent_safe_isolation_witness :
    run_agent_safe raising_agent one_change =
      ⟨"bad", [], 1, some (Exn.exc "boom")⟩ ∧
    ((([quick_agent] ++ raising_agent :: []).map
        (fun a => run_agent_safe a one_change)).filter (fun r => r.success)).length = 1 := by
  have h := run_agent_safe_isolation one_change [quick_agent] [] raising_agent
    (Exn.exc "boom") "0.1" "info" 20 rfl
    (by
      intro a ha
      simp only [List.append_nil, List.mem_singleton] at ha
      subst ha
      rfl)
  exact ⟨h.1, by simpa using h.2.2.2.1⟩

theorem requested_append (reg : Registry) (l1 l2 : List String) :
    requested_get_agents reg (l1 ++ l2) =
      requested_get_agents reg l1 ++ requested_get_agents reg l2 := by
  induction l1 with
  | nil => rfl
  | cons n rest ih =>
    cases h : alist_lookup n reg with
    | none => simp [requested_get_agents, h, ih]
    | some r =>
      cases r with
      | ok a => simp [requested_get_agents, h, ih]
      | error e2 => simp [requested_get_agents, h, ih]

theorem requested_filterMap (reg : Registry) (l : List String) :
    requested_get_agents reg l = l.filterMap (fun n =>
      match alist_lookup n reg with
      | some (.ok a) => some a
      | some (.error _) => none
      | none => none) := by
  induction l with
  | nil => rfl
  | cons n rest ih =>
    cases h : alist_lookup n reg with
    | none => simp [requested_get_agents, List.filterMap_cons, h, ih]
    | some r =>
      cases r with
      | ok a => simp [requested_get_agents, List.filterMap_cons, h, ih]
      | error e2 => simp [requested_get_agents, List.filterMap_cons, h, ih]

/-- C9: `get_agents` with a non-empty request instantiates, in the order
given, exactly the requested names that resolve in the registry to a
constructor that does not raise; unknown names and raising constructors are
skipped without failing the call; an empty or absent request falls back to
the configuration flags; and a batch whose agent list resolves empty
short-circuits to the "No review agents enabled or selected" empty Report. -/
theorem get_agents_resolution (reg : Registry) (flags : Flags) :
    (∀ l, l ≠ [] → get_agents (some l) reg flags = .ok (requested_get_agents reg l)) ∧
    (∀ l, requested_get_agents reg l = l.filterMap (fun n =>
      match alist_lookup n reg with
      | some (.ok a) => some a
      | some (.error _) => none
      | none => none)) ∧
    (∀ n pre post, alist_lookup n reg = none →
      requested_get_agents reg (pre ++ n :: post) = requested_get_agents reg (pre ++ post)) ∧
    (∀ n e2 pre post, alist_lookup n reg = some (.error e2) →
      requested_get_agents reg (pre ++ n :: post) = requested_get_agents reg (pre ++ post)) ∧
    get_agents (some []) reg flags = config_get_agents reg flags ∧
    get_agents none reg flags = config_get_agents reg flags ∧
    (∀ changes sel floor cap t, changes ≠ [] → get_agents sel reg flags = .ok [] →
      run_multi_agent_review_parallel changes sel reg flags floor cap t =
        .ok (empty_review "No review agents enabled or selected")) := by
  refine ⟨?_, requested_filterMap reg, ?_, ?_, rfl, rfl, ?_⟩
  · intro l h
    have hne : l.isEmpty = false := by
      cases l with
      | nil => exact absurd rfl h
      | cons a rest => rfl
    simp [get_agents, hne]
  · intro n pre post h
    rw [requested_append, requested_append]
    congr 1
    simp [requested_get_agents, h]
  · intro n e2 pre post h
    rw [requested_append, requested_append]
    congr 1
    simp [requested_get_agents, h]
  · intro changes sel floor cap t hch hga
    have hne : changes.isEmpty = false := by
      cases changes with
      | nil => exact absurd rfl hch
      | cons a rest => rfl
    simp [run_multi_agent_review_parallel, hne, hga]

/-- C9 witness: the resolution theorem applied to a registry with one
constructible agent, one unknown name and one raising constructor. -/
theorem get_agents_resolution_witness :
    get_agents (some ["security_agent", "unknown", "performance_agent"]) w_registry all_flags
      = .ok (requested_get_agents w_registry ["security_agent", "unknown", "performance_agent"])
      ∧
    requested_get_agents w_registry (["security_agent"] ++ "unknown" :: []) =
      requested_get_agents w_registry (["security_agent"] ++ []) ∧
    run_multi_agent_review_parallel one_change (some ["unknown"]) w_registry all_flags
      "info" 20 "1.0" = .ok (empty_review "No review agents enabled or selected") := by
  refine ⟨?_, ?_, ?_⟩
  · exact (get_agents_resolution w_registry all_flags).1
      ["security_agent", "unknown", "performance_agent"] (by decide)
  · exact (get_agents_resolution w_registry all_flags).2.2.1 "unknown"
      ["security_agent"] [] rfl
  · exact (get_agents_resolution w_registry all_flags).2.2.2.2.2.2 one_change
      (some ["unknown"]) "info" 20 "1.0" (by decide) rfl

/-- C5 counterexample: two comments with different `(agent, comment)` pairs,
`("a:b", "c")` and `("a", "b:c")`, share the concatenated merge key
`"a:b:c"`, so `_structure_comments` merges them into a single entry whose
lines list absorbs both line numbers — the merge is not keyed by the
`(agent, comment-text)` pair. -/
theorem merge_conflates_distinct_pairs :
    (collide_1.agent, collide_1.comment) ≠ (collide_2.agent, collide_2.comment) ∧
    merge_key collide_1 = merge_key collide_2 ∧
    files_bucket (structure_comments 20 [collide_1, collide_2]).files "f.py" .minor =
      [⟨"a:b", "c", none, [5, 9]⟩] :=
  ⟨by decide, by decide, by decide⟩

/-- C5 (amended): `_structure_comments` groups by file then severity and,
within each (file, severity) bucket, merges comments by equal concatenated
string key `agent ++ ":" ++ comment` (which coincides with the
`(agent, comment)` pair whenever agent names contain no colon): bucket
entries carry pairwise-distinct keys, every bucket comment is recorded under
its key with its line number, entries hold distinct line numbers and
originate from bucket comments, and two findings with identical
`(source_name, message)` on lines 5 and 9 of one bucket merge into one entry
with `lines = [5, 9]`. -/
theorem structure_merges_by_concat_key (comments : List ReviewComment) (f : String)
    (s : Severity) :
    ((merge_bucket (group_bucket (group_by_file_severity comments) f s)).map
      (fun e2 => e2.agent ++ ":" ++ e2.comment)).Nodup ∧
    (∀ c ∈ comments, c.file = f → c.severity = s →
      ∃ e2 ∈ merge_bucket (group_bucket (group_by_file_severity comments) f s),
        e2.agent ++ ":" ++ e2.comment = merge_key c ∧ c.line ∈ e2.lines) ∧
    (∀ e2 ∈ merge_bucket (group_bucket (group_by_file_severity comments) f s),
      e2.lines.Nodup ∧
      ∃ c ∈ comments, c.file = f ∧ c.severity = s ∧
        e2.agent = c.agent ∧ e2.comment = c.comment) ∧
    (∀ (fl ag msg : String) (su1 su2 : Option String) (sv : Severity),
      merge_bucket [⟨fl, 5, sv, ag, msg, su1⟩, ⟨fl, 9, sv, ag, msg, su2⟩] =
        [⟨ag, msg, su1, [5, 9]⟩]) := by
  refine ⟨merge_bucket_keys_nodup _, ?_, ?_, ?_⟩
  · intro c hc hcf hcs
    have hmem : c ∈ group_bucket (group_by_file_severity comments) f s := by
      rw [group_bucket_eq_filter]
      exact List.mem_filter.mpr ⟨hc, by simp [hcf, hcs]⟩
    exact merge_bucket_covers hmem
  · intro e2 he
    refine ⟨merge_bucket_lines_nodup he, ?_⟩
    rcases merge_bucket_from he with ⟨c, hc, hag, hcm⟩
    rw [group_bucket_eq_filter] at hc
    have hm := List.mem_filter.mp hc
    have hprop := hm.2
    simp only [Bool.and_eq_true, decide_eq_true_eq] at hprop
    exact ⟨c, hm.1, hprop.1, hprop.2, hag, hcm⟩
  · intro fl ag msg su1 su2 sv
    simp [merge_bucket, merge_step, upsert, merge_key, alist_lookup]

/-- C5 witness: the amended merge theorem applied to a one-comment bucket. -/
theorem structure_merges_by_concat_key_witness :
    ∃ e2 ∈ merge_bucket (group_bucket (group_by_file_severity
      [dup_comment "security"]) "auth.py" .critical),
      e2.agent ++ ":" ++ e2.comment = merge_key (dup_comment "security") ∧
      (dup_comment "security").line ∈ e2.lines :=
  (structure_merges_by_concat_key [dup_comment "security"] "auth.py" .critical).2.1
    (dup_comment "security") (by decide) rfl rfl

/-- C1 (code bug): the collection loop iterates `as_completed` without a
timeout, so when one agent's execution never completes the dispatcher never
yields its future and `run_multi_agent_review_parallel` never returns: no
`timed_out` AgentResult is recorded for that agent and no result list is
produced; a batch whose futures all complete returns exactly the futures'
own `run_agent_safe` values, so the `except TimeoutError` branch injecting a
timeout result is unreachable. -/
theorem dispatcher_hangs_on_stuck_agent :
    collect_as_completed (submit [quick_agent, hang_agent] one_change) = none ∧
    run_multi_agent_review_parallel one_change (some ["security_agent", "logic_agent"])
      c1_registry all_flags "info" 20 "60.0" = .hangs ∧
    collect_as_completed (submit [quick_agent] one_change) =
      some [run_agent_safe quick_agent one_change] ∧
    (run_agent_safe quick_agent one_change).error = none :=
  ⟨by decide, by decide, by decide, rfl⟩

end CodeGuardian
